import Mathlib

set_option maxRecDepth 8000

/-!
Verification development for the sampling and loss core of gnc/g2g.py.

The embedding below translates the relevant pieces of the source:

* shortest-path distances over the symmetrized, unweighted adjacency
  (the source calls scipy shortest_path with unweighted and undirected
  settings; here this is breadth-first search, which the specification
  explicitly allows as the contract is exactness of the distances);
* the function level_sets, reading the per-node shells off the distance
  matrix, with the sentinel -1 for infinite or beyond-K distances;
* the class CompleteKPartiteGraph with its derived arrays counts, total,
  nodes, n_i, start_i, out_degrees and p, and the method sample_edges,
  whose random draws are passed in explicitly as arguments;
* the class AttributedGraph with level_counts, loss_weights,
  eligible_nodes, the neighborhoods construction loop (assertion failures
  in the CompleteKPartiteGraph constructor become Except errors) and the
  method sample_two_neighbors;
* the closer-energy term of Encoder.compute_loss over the reals.

Machine floats of the source are modelled over ℚ (loss weights, sampling
probabilities: all values involved are exact dyadic rationals) and ℝ (the
energy term, which uses log).
-/

/-- Symmetrized adjacency: the source computes shortest paths with the
scipy option directed set to False, which considers an edge in either
direction. -/
def nbr (A : Nat → Nat → Bool) (i j : Nat) : Bool := A i j || A j i

/-- One breadth-first-search expansion step: all nodes below n that are in
s or adjacent to a node of s. -/
def stepReach (A : Nat → Nat → Bool) (n : Nat) (s : List Nat) : List Nat :=
  (List.range n).filter (fun j => s.any (fun x => x == j || nbr A x j))

/-- Nodes reachable from i in at most t hops (breadth-first search). -/
def reach (A : Nat → Nat → Bool) (n i : Nat) : Nat → List Nat
  | 0 => (List.range n).filter (fun j => j == i)
  | t + 1 => stepReach A n (reach A n i t)

/-- Unweighted undirected shortest-path distance, with the sentinel -1 for
unreachable pairs: the source replaces the infinities of the scipy
distance matrix by -1 before casting to int.  A path between two of the
n nodes, if any exists, has length below n, so searching hop counts in
the range below n is exact. -/
def distA (A : Nat → Nat → Bool) (n i j : Nat) : Int :=
  match (List.range n).find? (fun t => (reach A n i t).contains j) with
  | some t => (t : Int)
  | none => -1

/-- Distance with the optional cap K applied: the source sets all entries
above K to -1 as well. -/
def distK (A : Nat → Nat → Bool) (n : Nat) (K : Option Nat) (i j : Nat) : Int :=
  match K with
  | none => distA A n i j
  | some k => if (k : Int) < distA A n i j then -1 else distA A n i j

/-- Row maximum of the distance matrix: set_counts equals D.max over each
row in the source.  The fold seed -1 is a lower bound of every entry, so
for a nonempty row this is the row maximum. -/
def set_count (A : Nat → Nat → Bool) (n : Nat) (K : Option Nat) (i : Nat) : Int :=
  ((List.range n).map (fun j => distK A n K i j)).foldr max (-1)

/-- Number of shell lists allocated for node i: the source allocates
range (1 + set_counts i + 1) inner lists. -/
def num_shells (A : Nat → Nat → Bool) (n : Nat) (K : Option Nat) (i : Nat) : Nat :=
  (1 + set_count A n K i + 1).toNat

/-- The shell with index d of node i, as produced by the double loop of
level_sets in the source.  For a fixed node i the loop appends nodes in
one ascending pass over the pairs, so each shell is the ascending list of
the nodes the loop routes to that index: the self node is put in front of
shell 0, nodes at distance d go to shell d, and nodes with sentinel
distance go to the last shell (index set_count + 1), which also receives
any node whose distance equals that index (vacuous for a row maximum,
kept to mirror the branch structure of the loop). -/
def shell_of (A : Nat → Nat → Bool) (n : Nat) (K : Option Nat) (i d : Nat) : List Nat :=
  if d = 0 then
    i :: (List.range n).filter (fun j => decide (j ≠ i ∧ distK A n K i j = 0))
  else if d + 1 = num_shells A n K i then
    (List.range n).filter
      (fun j => decide (j ≠ i ∧ (distK A n K i j < 0 ∨ distK A n K i j = (d : Int))))
  else
    (List.range n).filter (fun j => decide (j ≠ i ∧ distK A n K i j = (d : Int)))

/-- The function level_sets of the source: for each node the list of its
shells.  An empty adjacency yields the empty mapping. -/
def level_sets (A : Nat → Nat → Bool) (n : Nat) (K : Option Nat) :
    List (List (List Nat)) :=
  (List.range n).map (fun i =>
    (List.range (num_shells A n K i)).map (fun d => shell_of A n K i d))

/-- AttributedGraph.level_counts: cardinality of each shell of each node. -/
def level_counts (A : Nat → Nat → Bool) (n : Nat) (K : Option Nat) :
    List (List Nat) :=
  (level_sets A n K).map (fun ls => ls.map List.length)

/-- AttributedGraph.loss_weights: for each node, half of the squared sum
minus the sum of squares of the shell sizes beyond the self shell. -/
def loss_weights (A : Nat → Nat → Bool) (n : Nat) (K : Option Nat) : List ℚ :=
  (List.range n).map (fun i =>
    (1 / 2 : ℚ) *
      (((((level_counts A n K).getD i []).drop 1).sum : ℚ) ^ 2 -
        ((((level_counts A n K).getD i []).drop 1).map
          (fun x : Nat => (x : ℚ) ^ 2)).sum))

/-- AttributedGraph.eligible_nodes: the nodes whose shell list has at
least three entries. -/
def eligible_nodes (A : Nat → Nat → Bool) (n : Nat) (K : Option Nat) : List Nat :=
  (List.range n).filter (fun i => decide (3 ≤ ((level_counts A n K).getD i []).length))

/-- CompleteKPartiteGraph.counts: the partition sizes. -/
def counts (P : List (List Nat)) : List Nat := P.map List.length

/-- CompleteKPartiteGraph.total: the number of nodes of the multipartite
graph. -/
def total (P : List (List Nat)) : Nat := (counts P).sum

/-- CompleteKPartiteGraph.nodes: all partitions flattened, giving the
external node id of every dense index. -/
def kpNodes : List (List Nat) → List Nat
  | [] => []
  | p :: ps => p ++ kpNodes ps

/-- CompleteKPartiteGraph.n_i: for every dense index, the size of the
partition of that node, one entry per node of each partition. -/
def n_i : List (List Nat) → List Nat
  | [] => []
  | p :: ps => p.map (fun _ => p.length) ++ n_i ps

/-- Helper for start_i: the source computes end minus n per partition via
the cumulative sums, which is exactly the running offset acc. -/
def start_i_from : List (List Nat) → Nat → List Nat
  | [], _ => []
  | p :: ps, acc => p.map (fun _ => acc) ++ start_i_from ps (acc + p.length)

/-- CompleteKPartiteGraph.start_i: for every dense index, the offset of
the start of its partition block inside nodes. -/
def start_i (P : List (List Nat)) : List Nat := start_i_from P 0

/-- CompleteKPartiteGraph.out_degrees: total minus own partition size. -/
def out_degrees (P : List (List Nat)) : List Nat :=
  (n_i P).map (fun m => total P - m)

/-- CompleteKPartiteGraph.p: per dense index, out-degree over the sum of
all out-degrees. -/
def p_vec (P : List (List Nat)) : List ℚ :=
  (out_degrees P).map (fun d : Nat => (d : ℚ) / ((out_degrees P).sum : ℚ))

/-- The rank remap of sample_edges: a uniform rank r below the out-degree
of the dense origin a is shifted past the own-partition block when it is
at or beyond the start offset of a. -/
def remap (P : List (List Nat)) (a r : Nat) : Nat :=
  if (start_i P).getD a 0 ≤ r then r + (n_i P).getD a 0 else r

/-- One sampled pair of dense indices, already swapped into canonical
order: sample_edges swaps the pair when the target index is below the
origin index. -/
def sample_pair (P : List (List Nat)) (a r : Nat) : Nat × Nat :=
  if remap P a r < a then (remap P a r, a) else (a, remap P a r)

/-- One sampled edge as external node ids, translated through nodes. -/
def sample_edge (P : List (List Nat)) (a r : Nat) : Nat × Nat :=
  ((kpNodes P).getD (sample_pair P a r).1 0, (kpNodes P).getD (sample_pair P a r).2 0)

/-- sample_edges of the source, with the batch of random draws (origin
index, uniform rank) passed explicitly. -/
def sample_edges (P : List (List Nat)) (draws : List (Nat × Nat)) : List (Nat × Nat) :=
  draws.map (fun d => sample_edge P d.1 d.2)

/-- The constructor preconditions of CompleteKPartiteGraph: at least two
partitions, all nonempty. -/
def ValidKP (P : List (List Nat)) : Prop :=
  2 ≤ P.length ∧ ∀ p ∈ P, p ≠ []

/-- The CompleteKPartiteGraph constructor with its two assert statements
modelled as errors. -/
def mkCompleteKPartite (P : List (List Nat)) : Except String (List (List Nat)) :=
  if P.length < 2 then .error "assertion failed: need at least two partitions"
  else if P.any (fun p => p.isEmpty) then .error "assertion failed: empty partition"
  else .ok P

/-- One iteration of the neighborhoods loop of AttributedGraph: nodes with
at least three shells get a sampler built from their shells beyond the
self shell, the others keep none. -/
def mk_neighborhood (A : Nat → Nat → Bool) (n : Nat) (K : Option Nat) (i : Nat) :
    Except String (Option (List (List Nat))) :=
  if 3 ≤ ((level_sets A n K).getD i []).length then
    (mkCompleteKPartite (((level_sets A n K).getD i []).drop 1)).map Option.some
  else .ok none

/-- The neighborhoods loop over a list of nodes, stopping at the first
constructor failure, as the source loop would. -/
def build_neighborhoods (A : Nat → Nat → Bool) (n : Nat) (K : Option Nat) :
    List Nat → Except String (List (Option (List (List Nat))))
  | [] => .ok []
  | i :: rest =>
    match mk_neighborhood A n K i with
    | .error e => .error e
    | .ok v =>
      match build_neighborhoods A n K rest with
      | .error e => .error e
      | .ok out => .ok (v :: out)

/-- AttributedGraph.neighborhoods as built by the constructor loop. -/
def neighborhoods (A : Nat → Nat → Bool) (n : Nat) (K : Option Nat) :
    Except String (List (Option (List (List Nat)))) :=
  build_neighborhoods A n K (List.range n)

/-- AttributedGraph.sample_two_neighbors: raise when the node has fewer
than three shells, otherwise delegate to the sampler of the node; a
missing sampler would be a None dereference, modelled as an error. -/
def sample_two_neighbors (A : Nat → Nat → Bool) (n : Nat) (K : Option Nat)
    (nbrs : List (Option (List (List Nat)))) (node : Nat)
    (draws : List (Nat × Nat)) : Except String (List (Nat × Nat)) :=
  if ((level_sets A n K).getD node []).length < 3 then
    .error ("Node " ++ toString node ++ " has only one layer of neighbors")
  else
    match nbrs.getD node none with
    | some P => .ok (sample_edges P draws)
    | none => .error "AttributeError: sample_edges of None"

/-- Index of the partition block containing a dense index, given the
block sizes. -/
def blockIdx : List Nat → Nat → Nat
  | [], _ => 0
  | c :: cs, a => if a < c then 0 else blockIdx cs (a - c) + 1

/-- Offset of block t: the sum of the sizes of the earlier blocks. -/
def offsetOf (cs : List Nat) (t : Nat) : Nat := (cs.take t).sum

/-- Explicit inverse of the rank remap on the dense indices outside the
block of the origin. -/
def remap_inv (P : List (List Nat)) (a b : Nat) : Nat :=
  if b < (start_i P).getD a 0 then b else b - (n_i P).getD a 0

/-- Probability that one call of sample_edges draws origin a and maps its
rank to dense target b, before the canonical swap: the choice weight of a
times the fraction of ranks mapping to b. -/
def pair_prob (P : List (List Nat)) (a b : Nat) : ℚ :=
  (p_vec P).getD a 0 *
    (((List.range ((out_degrees P).getD a 0)).filter
        (fun r => decide (remap P a r = b))).length : ℚ) /
    ((out_degrees P).getD a 0 : ℚ)

/-- The unique shell index that the loop of level_sets assigns to node x
in the decomposition of node i. -/
def shellIndex (A : Nat → Nat → Bool) (n : Nat) (K : Option Nat) (i x : Nat) : Nat :=
  if x = i then 0
  else if distK A n K i x < 0 then num_shells A n K i - 1
  else (distK A n K i x).toNat

/-- Whether an Except value is a success. -/
def except_is_ok : Except String α → Bool
  | .ok _ => true
  | .error _ => false

/-- Walks of a given length in the symmetrized graph, staying below n. -/
inductive Walk (A : Nat → Nat → Bool) (n : Nat) : Nat → Nat → Nat → Prop where
  | refl (i : Nat) (h : i < n) : Walk A n i i 0
  | snoc (i x j t : Nat) (w : Walk A n i x t) (hx : nbr A x j = true)
      (hj : j < n) : Walk A n i j (t + 1)

/-- The closer-energy term of Encoder.compute_loss for one triplet, over
the reals: half of the sum of the variance ratios plus the sigma-weighted
squared mean difference, minus the embedding dimension, minus the sum of
the logs of the variance ratios. -/
noncomputable def closer_energy (mu_i mu_j sigma_i sigma_j : List ℝ) (L : ℕ) : ℝ :=
  (1 / 2 : ℝ) *
    ((List.zipWith (fun a b => a / b) sigma_j sigma_i).sum +
      (List.zipWith (fun a b => a ^ 2 / b)
        (List.zipWith (fun a b => a - b) mu_i mu_j) sigma_i).sum -
      (L : ℝ) -
      ((List.zipWith (fun a b => a / b) sigma_j sigma_i).map Real.log).sum)

/-- The 5-node path graph 0-1-2-3-4. -/
def pathA (i j : Nat) : Bool := j == i + 1 || i == j + 1

/-- A single edge between nodes 0 and 1; with n = 2 this is the two-node
complete graph, with n = 3 it has the isolated extra node 2. -/
def twoA (i j : Nat) : Bool := (i == 0 && j == 1) || (i == 1 && j == 0)

/-- Star around node 0 with leaves 1, 2, 3; with n = 8 the nodes 4..7 are
isolated, so node 0 has shell sizes 1, 3, 4. -/
def star8A (i j : Nat) : Bool :=
  (i == 0 && (j == 1 || j == 2 || j == 3)) || (j == 0 && (i == 1 || i == 2 || i == 3))

/-! ### Generic list helpers -/

theorem getD_append_left {α : Type} (l1 l2 : List α) (d : α) (a : Nat)
    (h : a < l1.length) : (l1 ++ l2).getD a d = l1.getD a d := by
  rw [List.getD_eq_getElem?_getD, List.getD_eq_getElem?_getD,
    List.getElem?_append_left h]

theorem getD_append_right {α : Type} (l1 l2 : List α) (d : α) (a : Nat)
    (h : l1.length ≤ a) : (l1 ++ l2).getD a d = l2.getD (a - l1.length) d := by
  rw [List.getD_eq_getElem?_getD, List.getD_eq_getElem?_getD,
    List.getElem?_append_right h]

theorem getD_map {α β : Type} (f : α → β) (l : List α) (a : Nat) (d : β) (d0 : α)
    (h : a < l.length) : (l.map f).getD a d = f (l.getD a d0) := by
  rw [List.getD_eq_getElem _ _ (by simpa using h), List.getD_eq_getElem _ _ h,
    List.getElem_map]

theorem getD_range (n a : Nat) (h : a < n) : (List.range n).getD a 0 = a := by
  rw [List.getD_eq_getElem _ _ (by simpa using h)]
  simp

theorem getD_mem_of_lt {α : Type} {l : List α} {a : Nat} {d : α} (h : a < l.length) :
    l.getD a d ∈ l := by
  rw [List.getD_eq_getElem _ _ h]
  exact List.getElem_mem h

theorem le_sum_of_mem {l : List Nat} {x : Nat} (h : x ∈ l) : x ≤ l.sum := by
  induction l with
  | nil => cases h
  | cons y ys ih =>
    rw [List.sum_cons]
    rcases List.mem_cons.mp h with rfl | h2
    · exact Nat.le_add_right _ _
    · exact le_trans (ih h2) (Nat.le_add_left _ _)

theorem length_le_sum {l : List Nat} (h : ∀ c ∈ l, 1 ≤ c) : l.length ≤ l.sum := by
  induction l with
  | nil => simp
  | cons y ys ih =>
    rw [List.sum_cons, List.length_cons]
    have h1 := h y (List.mem_cons_self _ _)
    have h2 := ih (fun c hc => h c (List.mem_cons_of_mem _ hc))
    omega

theorem getD_add_one_le_sum (cs : List Nat) (t : Nat) (ht : t < cs.length)
    (h1 : ∀ c ∈ cs, 1 ≤ c) (h2 : 2 ≤ cs.length) : cs.getD t 0 + 1 ≤ cs.sum := by
  cases cs with
  | nil => simp at ht
  | cons c cs =>
    rw [List.sum_cons]
    cases t with
    | zero =>
      have hne : cs ≠ [] := by
        intro h
        subst h
        simp at h2
      obtain ⟨x, hx⟩ := List.exists_mem_of_ne_nil cs hne
      have hx1 := h1 x (List.mem_cons_of_mem _ hx)
      have hx2 := le_sum_of_mem hx
      simp only [List.getD_cons_zero]
      omega
    | succ t' =>
      have ht' : t' < cs.length := by simpa using ht
      have hc := h1 c (List.mem_cons_self _ _)
      have hmem : cs.getD t' 0 ∈ cs := getD_mem_of_lt ht'
      have := le_sum_of_mem hmem
      simp only [List.getD_cons_succ]
      omega

theorem filter_range_unique (m x : Nat) (p : Nat → Bool) (hx : x < m)
    (hp : ∀ r, r < m → (p r = true ↔ r = x)) :
    ((List.range m).filter p).length = 1 := by
  induction m with
  | zero => omega
  | succ m ih =>
    rw [List.range_succ, List.filter_append, List.length_append]
    by_cases hxm : x = m
    · have h1 : (List.range m).filter p = [] := by
        rw [List.filter_eq_nil_iff]
        intro a ha
        have ham := List.mem_range.mp ha
        intro hpa
        have := (hp a (by omega)).mp hpa
        omega
      have h2 : p m = true := (hp m (by omega)).mpr hxm.symm
      simp [h1, h2]
    · have hx' : x < m := by omega
      have h2 : p m = false := by
        by_contra hc
        have : p m = true := by
          cases hpm : p m with
          | false => exact absurd hpm hc
          | true => rfl
        have := (hp m (by omega)).mp this
        omega
      rw [ih hx' (fun r hr => hp r (by omega))]
      simp [h2]

/-! ### Indexing lemmas for the complete k-partite sampler -/

theorem counts_length (P : List (List Nat)) : (counts P).length = P.length := by
  simp [counts]

theorem total_cons (p : List Nat) (ps : List (List Nat)) :
    total (p :: ps) = p.length + total ps := by
  simp [total, counts]

theorem n_i_length (P : List (List Nat)) : (n_i P).length = total P := by
  induction P with
  | nil => rfl
  | cons p ps ih => simp [n_i, total_cons, ih]

theorem kpNodes_length (P : List (List Nat)) : (kpNodes P).length = total P := by
  induction P with
  | nil => rfl
  | cons p ps ih => simp [kpNodes, total_cons, ih]

theorem start_i_from_length (P : List (List Nat)) (acc : Nat) :
    (start_i_from P acc).length = total P := by
  induction P generalizing acc with
  | nil => rfl
  | cons p ps ih => simp [start_i_from, total_cons, ih]

theorem out_degrees_length (P : List (List Nat)) :
    (out_degrees P).length = total P := by
  simp [out_degrees, n_i_length]

theorem n_i_getD (P : List (List Nat)) (a : Nat) (h : a < total P) :
    (n_i P).getD a 0 = (counts P).getD (blockIdx (counts P) a) 0 := by
  induction P generalizing a with
  | nil => simp [total, counts] at h
  | cons p ps ih =>
    by_cases ha : a < p.length
    · rw [show n_i (p :: ps) = p.map (fun _ => p.length) ++ n_i ps from rfl,
        getD_append_left _ _ _ _ (by simpa using ha),
        getD_map _ _ _ _ (0 : Nat) ha]
      simp [counts, blockIdx, ha]
    · rw [show n_i (p :: ps) = p.map (fun _ => p.length) ++ n_i ps from rfl,
        getD_append_right _ _ _ _ (by simpa using not_lt.mp ha)]
      rw [List.length_map]
      have h' : a - p.length < total ps := by
        rw [total_cons] at h
        omega
      rw [ih _ h']
      simp only [counts, List.map_cons, blockIdx, ha, if_false]
      rfl

theorem start_i_from_getD (P : List (List Nat)) (acc a : Nat) (h : a < total P) :
    (start_i_from P acc).getD a 0 =
      acc + offsetOf (counts P) (blockIdx (counts P) a) := by
  induction P generalizing acc a with
  | nil => simp [total, counts] at h
  | cons p ps ih =>
    by_cases ha : a < p.length
    · rw [show start_i_from (p :: ps) acc = p.map (fun _ => acc) ++ start_i_from ps (acc + p.length) from rfl,
        getD_append_left _ _ _ _ (by simpa using ha),
        getD_map _ _ _ _ (0 : Nat) ha]
      simp [counts, blockIdx, ha, offsetOf]
    · rw [show start_i_from (p :: ps) acc = p.map (fun _ => acc) ++ start_i_from ps (acc + p.length) from rfl,
        getD_append_right _ _ _ _ (by simpa using not_lt.mp ha)]
      rw [List.length_map]
      have h' : a - p.length < total ps := by
        rw [total_cons] at h
        omega
      rw [ih _ _ h']
      simp only [counts, List.map_cons, blockIdx, ha, if_false]
      rw [show offsetOf (p.length :: List.map List.length ps) (blockIdx (List.map List.length ps) (a - p.length) + 1) =
        p.length + offsetOf (List.map List.length ps) (blockIdx (List.map List.length ps) (a - p.length)) from by
          simp [offsetOf, List.take_succ_cons]]
      omega

theorem start_i_getD (P : List (List Nat)) (a : Nat) (h : a < total P) :
    (start_i P).getD a 0 = offsetOf (counts P) (blockIdx (counts P) a) := by
  rw [start_i, start_i_from_getD _ _ _ h, Nat.zero_add]

theorem kpNodes_getD_mem (P : List (List Nat)) (a : Nat) (h : a < total P) :
    (kpNodes P).getD a 0 ∈ P.getD (blockIdx (counts P) a) [] := by
  induction P generalizing a with
  | nil => simp [total, counts] at h
  | cons p ps ih =>
    by_cases ha : a < p.length
    · rw [show kpNodes (p :: ps) = p ++ kpNodes ps from rfl,
        getD_append_left _ _ _ _ ha]
      simp only [counts, List.map_cons, blockIdx, ha, if_true]
      exact getD_mem_of_lt ha
    · rw [show kpNodes (p :: ps) = p ++ kpNodes ps from rfl,
        getD_append_right _ _ _ _ (not_lt.mp ha)]
      have h' : a - p.length < total ps := by
        rw [total_cons] at h
        omega
      have := ih _ h'
      simp only [counts, List.map_cons, blockIdx, ha, if_false]
      exact this

theorem blockIdx_lt (cs : List Nat) (a : Nat) (h : a < cs.sum) :
    blockIdx cs a < cs.length := by
  induction cs generalizing a with
  | nil => simp at h
  | cons c cs ih =>
    rw [List.sum_cons] at h
    by_cases ha : a < c
    · simp [blockIdx, ha]
    · have := ih (a - c) (by omega)
      simp only [blockIdx, ha, if_false, List.length_cons]
      omega

theorem blockIdx_spec (cs : List Nat) (a : Nat) (h : a < cs.sum) :
    offsetOf cs (blockIdx cs a) ≤ a ∧
      a < offsetOf cs (blockIdx cs a) + cs.getD (blockIdx cs a) 0 := by
  induction cs generalizing a with
  | nil => simp at h
  | cons c cs ih =>
    rw [List.sum_cons] at h
    by_cases ha : a < c
    · simp [blockIdx, ha, offsetOf]
    · have hrec := ih (a - c) (by omega)
      simp only [blockIdx, ha, if_false]
      have hoff : ∀ t, offsetOf (c :: cs) (t + 1) = c + offsetOf cs t := by
        intro t
        simp [offsetOf, List.take_succ_cons]
      rw [hoff]
      simp only [List.getD_cons_succ]
      omega

theorem blockIdx_mono (cs : List Nat) {a b : Nat} (h : a ≤ b) :
    blockIdx cs a ≤ blockIdx cs b := by
  induction cs generalizing a b with
  | nil => simp [blockIdx]
  | cons c cs ih =>
    by_cases ha : a < c
    · simp only [blockIdx, ha, if_true]
      omega
    · have hb : ¬ b < c := by omega
      simp only [blockIdx, ha, hb, if_false]
      have := ih (show a - c ≤ b - c by omega)
      omega

theorem blockIdx_eq_of_mem_block (cs : List Nat) (t x : Nat) (ht : t < cs.length)
    (h1 : offsetOf cs t ≤ x) (h2 : x < offsetOf cs t + cs.getD t 0) :
    blockIdx cs x = t := by
  induction cs generalizing t x with
  | nil => simp at ht
  | cons c cs ih =>
    cases t with
    | zero =>
      simp only [offsetOf, List.take_zero, List.sum_nil, List.getD_cons_zero] at h1 h2
      simp [blockIdx, show x < c by omega]
    | succ t' =>
      have hoff : offsetOf (c :: cs) (t' + 1) = c + offsetOf cs t' := by
        simp [offsetOf, List.take_succ_cons]
      rw [hoff] at h1 h2
      simp only [List.getD_cons_succ] at h2
      have hxc : ¬ x < c := by omega
      simp only [blockIdx, hxc, if_false]
      rw [ih t' (x - c) (by simpa using ht) (by omega) (by omega)]

theorem offsetOf_le_sum (cs : List Nat) (t : Nat) : offsetOf cs t ≤ cs.sum := by
  have h : cs.sum = (cs.take t).sum + (cs.drop t).sum := by
    conv_lhs => rw [← List.take_append_drop t cs]
    rw [List.sum_append]
  rw [offsetOf]
  omega

theorem offsetOf_succ (cs : List Nat) (t : Nat) (h : t < cs.length) :
    offsetOf cs (t + 1) = offsetOf cs t + cs.getD t 0 := by
  rw [offsetOf, offsetOf, List.sum_take_succ _ _ h, List.getD_eq_getElem _ _ h]

theorem offset_add_getD_le (cs : List Nat) (t : Nat) (h : t < cs.length) :
    offsetOf cs t + cs.getD t 0 ≤ cs.sum := by
  rw [← offsetOf_succ _ _ h]
  exact offsetOf_le_sum _ _

theorem counts_pos {P : List (List Nat)} (h : ValidKP P) :
    ∀ c ∈ counts P, 1 ≤ c := by
  intro c hc
  obtain ⟨p, hp, rfl⟩ := List.mem_map.mp hc
  have := h.2 p hp
  exact List.length_pos.mpr this

theorem out_degrees_getD (P : List (List Nat)) (a : Nat) (h : a < total P) :
    (out_degrees P).getD a 0 = total P - (n_i P).getD a 0 := by
  rw [out_degrees, getD_map _ _ _ _ (0 : Nat) (by rw [n_i_length]; exact h)]

theorem p_vec_getD (P : List (List Nat)) (a : Nat) (h : a < total P) :
    (p_vec P).getD a 0 =
      ((out_degrees P).getD a 0 : ℚ) / ((out_degrees P).sum : ℚ) := by
  rw [p_vec, getD_map _ _ _ (0 : ℚ) (0 : Nat) (by rw [out_degrees_length]; exact h)]

theorem two_le_total {P : List (List Nat)} (h : ValidKP P) : 2 ≤ total P := by
  have h1 := length_le_sum (l := counts P) (counts_pos h)
  have h2 : 2 ≤ (counts P).length := by
    rw [counts_length]
    exact h.1
  rw [total]
  omega

theorem out_deg_pos {P : List (List Nat)} (h : ValidKP P) (a : Nat)
    (ha : a < total P) : 1 ≤ (out_degrees P).getD a 0 := by
  rw [out_degrees_getD _ _ ha, n_i_getD _ _ ha]
  have ht : blockIdx (counts P) a < (counts P).length := blockIdx_lt _ _ ha
  have := getD_add_one_le_sum (counts P) _ ht (counts_pos h)
    (by rw [counts_length]; exact h.1)
  rw [total]
  omega

theorem out_deg_sum_pos {P : List (List Nat)} (h : ValidKP P) :
    1 ≤ (out_degrees P).sum := by
  have h0 : (0 : Nat) < total P := by
    have := two_le_total h
    omega
  have h1 := out_deg_pos h 0 h0
  have h2 : (out_degrees P).getD 0 0 ∈ out_degrees P :=
    getD_mem_of_lt (by rw [out_degrees_length]; exact h0)
  have := le_sum_of_mem h2
  omega

theorem n_i_le_total (P : List (List Nat)) (a : Nat) (h : a < total P) :
    (n_i P).getD a 0 ≤ total P := by
  rw [n_i_getD _ _ h]
  have ht : blockIdx (counts P) a < (counts P).length := blockIdx_lt _ _ h
  have h1 := offset_add_getD_le (counts P) _ ht
  rw [total]
  omega

theorem own_block_bounds (P : List (List Nat)) (a : Nat) (h : a < total P) :
    (start_i P).getD a 0 ≤ a ∧
      a < (start_i P).getD a 0 + (n_i P).getD a 0 ∧
      (start_i P).getD a 0 + (n_i P).getD a 0 ≤ total P := by
  rw [start_i_getD _ _ h, n_i_getD _ _ h]
  have hs := blockIdx_spec (counts P) a h
  have ht : blockIdx (counts P) a < (counts P).length := blockIdx_lt _ _ h
  have h1 := offset_add_getD_le (counts P) _ ht
  exact ⟨hs.1, hs.2, h1⟩

theorem blockIdx_ne_iff (P : List (List Nat)) (a b : Nat) (ha : a < total P)
    (hb : b < total P) :
    blockIdx (counts P) b ≠ blockIdx (counts P) a ↔
      (b < (start_i P).getD a 0 ∨ (start_i P).getD a 0 + (n_i P).getD a 0 ≤ b) := by
  rw [start_i_getD _ _ ha, n_i_getD _ _ ha]
  constructor
  · intro hne
    by_contra hcon
    push_neg at hcon
    have ht : blockIdx (counts P) a < (counts P).length := blockIdx_lt _ _ ha
    exact hne (blockIdx_eq_of_mem_block _ _ _ ht hcon.1 hcon.2)
  · intro hcases hEq
    have hs := blockIdx_spec (counts P) b hb
    rw [hEq] at hs
    omega

/-! ### The rank remap is a bijection onto the complement of the own block -/

theorem remap_props {P : List (List Nat)} (h : ValidKP P) (a r : Nat)
    (ha : a < total P) (hr : r < (out_degrees P).getD a 0) :
    remap P a r < total P ∧
      blockIdx (counts P) (remap P a r) ≠ blockIdx (counts P) a ∧
      remap_inv P a (remap P a r) = r := by
  have hb := own_block_bounds P a ha
  rw [out_degrees_getD _ _ ha] at hr
  by_cases hcase : (start_i P).getD a 0 ≤ r
  · have h1 : remap P a r = r + (n_i P).getD a 0 := by rw [remap, if_pos hcase]
    have hlt : remap P a r < total P := by omega
    refine ⟨hlt, ?_, ?_⟩
    · rw [blockIdx_ne_iff P a _ ha hlt]
      right
      omega
    · rw [remap_inv, if_neg (by omega), h1]
      omega
  · have h1 : remap P a r = r := by rw [remap, if_neg hcase]
    have hlt : remap P a r < total P := by omega
    refine ⟨hlt, ?_, ?_⟩
    · rw [blockIdx_ne_iff P a _ ha hlt]
      left
      omega
    · rw [remap_inv, if_pos (by omega), h1]

theorem remap_inv_props {P : List (List Nat)} (h : ValidKP P) (a b : Nat)
    (ha : a < total P) (hb : b < total P)
    (hne : blockIdx (counts P) b ≠ blockIdx (counts P) a) :
    remap_inv P a b < (out_degrees P).getD a 0 ∧ remap P a (remap_inv P a b) = b := by
  have hbb := own_block_bounds P a ha
  rw [out_degrees_getD _ _ ha]
  rw [blockIdx_ne_iff P a b ha hb] at hne
  rcases hne with hlt | hge
  · rw [remap_inv, if_pos hlt]
    refine ⟨by omega, ?_⟩
    rw [remap, if_neg (by omega)]
  · rw [remap_inv, if_neg (by omega)]
    refine ⟨by omega, ?_⟩
    rw [remap, if_pos (by omega)]
    omega

theorem filter_remap_singleton {P : List (List Nat)} (h : ValidKP P) (a b : Nat)
    (ha : a < total P) (hb : b < total P)
    (hne : blockIdx (counts P) b ≠ blockIdx (counts P) a) :
    ((List.range ((out_degrees P).getD a 0)).filter
      (fun r => decide (remap P a r = b))).length = 1 := by
  apply filter_range_unique _ (remap_inv P a b) _ (remap_inv_props h a b ha hb hne).1
  intro r hr
  simp only [decide_eq_true_eq]
  constructor
  · intro him
    have hp := remap_props h a r ha hr
    rw [← him]
    exact hp.2.2.symm
  · intro him
    subst him
    exact (remap_inv_props h a b ha hb hne).2

/-- Claim C3: in a CompleteKPartiteGraph built from the given partitions,
the sampling weight of every dense origin is its out-degree (total minus
own partition size) over the sum of out-degrees, the rank remap (adding
the own partition size when the rank is at or beyond the own start
offset) is a bijection from the ranks below the out-degree onto the dense
indices outside the own partition (witnessed by the explicit inverse),
and consequently the probability of drawing any fixed cross-partition
ordered pair is the constant one over the sum of out-degrees, i.e. each
sampled edge is uniform over the cross-partition pairs. -/
theorem c3_sampler_uniform (P : List (List Nat)) (h : ValidKP P) (a : Nat)
    (ha : a < total P) :
    ((p_vec P).getD a 0 =
        ((out_degrees P).getD a 0 : ℚ) / ((out_degrees P).sum : ℚ)) ∧
      ((out_degrees P).getD a 0 = total P - (n_i P).getD a 0) ∧
      ((n_i P).getD a 0 = (counts P).getD (blockIdx (counts P) a) 0) ∧
      (∀ r, r < (out_degrees P).getD a 0 →
        remap P a r < total P ∧
          blockIdx (counts P) (remap P a r) ≠ blockIdx (counts P) a ∧
          remap_inv P a (remap P a r) = r) ∧
      (∀ b, b < total P → blockIdx (counts P) b ≠ blockIdx (counts P) a →
        remap_inv P a b < (out_degrees P).getD a 0 ∧
          remap P a (remap_inv P a b) = b ∧
          pair_prob P a b = 1 / ((out_degrees P).sum : ℚ)) := by
  refine ⟨p_vec_getD P a ha, out_degrees_getD P a ha, n_i_getD P a ha,
    fun r hr => remap_props h a r ha hr, fun b hb hne => ?_⟩
  obtain ⟨h1, h2⟩ := remap_inv_props h a b ha hb hne
  refine ⟨h1, h2, ?_⟩
  have hd : (0 : ℚ) < ((out_degrees P).getD a 0 : ℚ) := by
    have := out_deg_pos h a ha
    exact_mod_cast Nat.lt_of_lt_of_le Nat.zero_lt_one this
  have hS : (0 : ℚ) < ((out_degrees P).sum : ℚ) := by
    have := out_deg_sum_pos h
    exact_mod_cast Nat.lt_of_lt_of_le Nat.zero_lt_one this
  have hd0 : ((out_degrees P).getD a 0 : ℚ) ≠ 0 := ne_of_gt hd
  have hS0 : ((out_degrees P).sum : ℚ) ≠ 0 := ne_of_gt hS
  rw [pair_prob, p_vec_getD P a ha, filter_remap_singleton h a b ha hb hne,
    Nat.cast_one]
  set d := ((out_degrees P).getD a 0 : ℚ) with hdd
  set S := ((out_degrees P).sum : ℚ) with hSS
  field_simp
  ring

/-- Witness for C3: the sampler of node 2 of the 5-node path graph has
partitions with node ids 1, 3 and 0, 4; with origin dense index 0 and
target dense index 2 the drawing probability is the uniform one over the
sum of out-degrees. -/
theorem c3_sampler_uniform_witness :
    pair_prob [[1, 3], [0, 4]] 0 2 = 1 / ((out_degrees [[1, 3], [0, 4]]).sum : ℚ) := by
  have h : ValidKP [[1, 3], [0, 4]] := ⟨by decide, by decide⟩
  exact ((c3_sampler_uniform [[1, 3], [0, 4]] h 0 (by decide)).2.2.2.2 2
    (by decide) (by decide)).2.2

/-! ### Order and partition membership of sampled pairs -/

theorem sample_pair_blocks {P : List (List Nat)} (h : ValidKP P) (a r : Nat)
    (ha : a < total P) (hr : r < (out_degrees P).getD a 0) :
    blockIdx (counts P) (sample_pair P a r).1 <
        blockIdx (counts P) (sample_pair P a r).2 ∧
      (sample_pair P a r).1 < total P ∧ (sample_pair P a r).2 < total P := by
  obtain ⟨hk1, hk2, _⟩ := remap_props h a r ha hr
  by_cases hka : remap P a r < a
  · rw [sample_pair, if_pos hka]
    have hm := blockIdx_mono (counts P) (le_of_lt hka)
    exact ⟨lt_of_le_of_ne hm hk2, lt_trans hka ha, ha⟩
  · rw [sample_pair, if_neg hka]
    have hm := blockIdx_mono (counts P) (not_lt.mp hka)
    exact ⟨lt_of_le_of_ne hm (Ne.symm hk2), ha, hk1⟩

/-- Claim C4: every edge returned by sample_edges on valid draws (origin
below total, rank below the out-degree of the origin) consists of two
nodes of different input partitions, with the partition index of the
first (closer) node strictly below — in particular at most — that of the
second (farther) node. -/
theorem c4_sampled_pairs_ordered (P : List (List Nat)) (h : ValidKP P)
    (draws : List (Nat × Nat))
    (hd : ∀ d ∈ draws, d.1 < total P ∧ d.2 < (out_degrees P).getD d.1 0) :
    ∀ e ∈ sample_edges P draws, ∃ t1 t2, t1 < t2 ∧ t2 < P.length ∧
      e.1 ∈ P.getD t1 [] ∧ e.2 ∈ P.getD t2 [] := by
  intro e he
  rw [sample_edges, List.mem_map] at he
  obtain ⟨d, hdm, rfl⟩ := he
  obtain ⟨ha, hr⟩ := hd d hdm
  obtain ⟨hlt, h1, h2⟩ := sample_pair_blocks h d.1 d.2 ha hr
  refine ⟨blockIdx (counts P) (sample_pair P d.1 d.2).1,
    blockIdx (counts P) (sample_pair P d.1 d.2).2, hlt, ?_, ?_, ?_⟩
  · have hb := blockIdx_lt (counts P) _ h2
    rwa [counts_length] at hb
  · exact kpNodes_getD_mem P _ h1
  · exact kpNodes_getD_mem P _ h2

/-- Witness for C4: one concrete draw on the sampler with partitions of
node ids 1, 3 and 0, 4. -/
theorem c4_sampled_pairs_ordered_witness :
    ∃ t1 t2, t1 < t2 ∧ t2 < ([[1, 3], [0, 4]] : List (List Nat)).length ∧
      (sample_edge [[1, 3], [0, 4]] 0 1).1 ∈ ([[1, 3], [0, 4]] : List (List Nat)).getD t1 [] ∧
      (sample_edge [[1, 3], [0, 4]] 0 1).2 ∈ ([[1, 3], [0, 4]] : List (List Nat)).getD t2 [] := by
  have h : ValidKP [[1, 3], [0, 4]] := ⟨by decide, by decide⟩
  have hmain := c4_sampled_pairs_ordered [[1, 3], [0, 4]] h [(0, 1)] (by decide)
  exact hmain (sample_edge [[1, 3], [0, 4]] 0 1) (by simp [sample_edges])

/-! ### Walks and breadth-first search -/

theorem walk_bounds {A : Nat → Nat → Bool} {n i j t : Nat}
    (w : Walk A n i j t) : i < n ∧ j < n := by
  induction w with
  | refl h => exact ⟨h, h⟩
  | snoc x j t w hx hj ih => exact ⟨ih.1, hj⟩

theorem nbr_symm (A : Nat → Nat → Bool) (x y : Nat) : nbr A x y = nbr A y x := by
  rw [nbr, nbr, Bool.or_comm]

theorem walk_trans {A : Nat → Nat → Bool} {n : Nat} :
    ∀ {x j t : Nat}, Walk A n x j t → ∀ {i s : Nat}, Walk A n i x s →
      Walk A n i j (s + t) := by
  intro x j t w
  induction w with
  | refl h =>
    intro i s w1
    simpa using w1
  | snoc y j2 t2 w2 hy hj ih =>
    intro i s w1
    exact Walk.snoc _ _ _ _ (ih w1) hy hj

theorem walk_cons {A : Nat → Nat → Bool} {n i x j t : Nat}
    (hix : nbr A i x = true) (hi : i < n) (w : Walk A n x j t) :
    Walk A n i j (t + 1) := by
  have hx : x < n := (walk_bounds w).1
  have w1 : Walk A n i x 1 := Walk.snoc _ _ _ _ (Walk.refl i hi) hix hx
  have h2 := walk_trans w w1
  rwa [Nat.add_comm 1 t] at h2

theorem walk_symm {A : Nat → Nat → Bool} {n i j t : Nat}
    (w : Walk A n i j t) : Walk A n j i t := by
  induction w with
  | refl h => exact Walk.refl _ h
  | snoc x j2 t2 w2 hx hj ih =>
    exact walk_cons (by rw [nbr_symm]; exact hx) hj ih

theorem mem_reach (A : Nat → Nat → Bool) (n i : Nat) :
    ∀ t j, j ∈ reach A n i t ↔ ∃ s, s ≤ t ∧ Walk A n i j s := by
  intro t
  induction t with
  | zero =>
    intro j
    rw [reach]
    simp only [List.mem_filter, List.mem_range, beq_iff_eq]
    constructor
    · rintro ⟨hj, rfl⟩
      exact ⟨0, le_refl 0, Walk.refl j hj⟩
    · rintro ⟨s, hs, w⟩
      have hs0 : s = 0 := by omega
      subst hs0
      cases w with
      | refl h => exact ⟨h, rfl⟩
  | succ t ih =>
    intro j
    rw [reach, stepReach]
    simp only [List.mem_filter, List.mem_range, List.any_eq_true, Bool.or_eq_true,
      beq_iff_eq]
    constructor
    · rintro ⟨hj, x, hx, hcase⟩
      obtain ⟨s, hs, w⟩ := (ih x).mp hx
      rcases hcase with rfl | hnbr
      · exact ⟨s, by omega, w⟩
      · exact ⟨s + 1, by omega, Walk.snoc _ _ _ _ w hnbr hj⟩
    · rintro ⟨s, hs, w⟩
      have hj := (walk_bounds w).2
      refine ⟨hj, ?_⟩
      by_cases hst : s ≤ t
      · exact ⟨j, (ih j).mpr ⟨s, hst, w⟩, Or.inl rfl⟩
      · have hs1 : s = t + 1 := by omega
        subst hs1
        cases w with
        | snoc x j2 t2 w2 hx hj2 =>
          exact ⟨x, (ih x).mpr ⟨t, le_refl t, w2⟩, Or.inr hx⟩

theorem mem_reach_symm (A : Nat → Nat → Bool) (n t i j : Nat) :
    j ∈ reach A n i t ↔ i ∈ reach A n j t := by
  rw [mem_reach, mem_reach]
  constructor <;> rintro ⟨s, hs, w⟩ <;> exact ⟨s, hs, walk_symm w⟩

theorem distA_symm (A : Nat → Nat → Bool) (n i j : Nat) :
    distA A n i j = distA A n j i := by
  have hfun : (fun t => (reach A n i t).contains j) =
      (fun t => (reach A n j t).contains i) := by
    funext t
    rw [← Bool.coe_iff_coe]
    simpa using mem_reach_symm A n t i j
  rw [distA, distA, hfun]

theorem distA_self (A : Nat → Nat → Bool) (n i : Nat) (h : i < n) :
    distA A n i i = 0 := by
  rw [distA]
  cases n with
  | zero => omega
  | succ m =>
    have hp : ((reach A (m + 1) i 0).contains i) = true := by
      have hmem : i ∈ reach A (m + 1) i 0 := by
        rw [reach]
        simp only [List.mem_filter, List.mem_range, beq_iff_eq]
        exact ⟨h, trivial⟩
      simpa using hmem
    have hfind : List.find? (fun t => (reach A (m + 1) i t).contains i)
        (0 :: List.map Nat.succ (List.range m)) = some 0 :=
      List.find?_cons_of_pos _ hp
    rw [List.range_succ_eq_map, hfind]
    rfl

theorem distA_cases (A : Nat → Nat → Bool) (n i j : Nat) :
    distA A n i j = -1 ∨ 0 ≤ distA A n i j := by
  rw [distA]
  cases hf : (List.range n).find? (fun t => (reach A n i t).contains j) with
  | none => exact Or.inl rfl
  | some t =>
    exact Or.inr (show (0 : Int) ≤ (t : Int) by exact_mod_cast Nat.zero_le t)

theorem distA_eq_zero_iff (A : Nat → Nat → Bool) (n i j : Nat) (hi : i < n) :
    distA A n i j = 0 ↔ i = j := by
  constructor
  · intro h0
    rw [distA] at h0
    cases hf : (List.range n).find? (fun t => (reach A n i t).contains j) with
    | none =>
      rw [hf] at h0
      exact absurd h0 (by decide)
    | some t =>
      rw [hf] at h0
      have h0i : (t : Int) = 0 := h0
      have ht : t = 0 := by exact_mod_cast h0i
      subst ht
      have hp := List.find?_some hf
      have hmem : j ∈ reach A n i 0 := by simpa using hp
      rw [reach] at hmem
      simp only [List.mem_filter, List.mem_range, beq_iff_eq] at hmem
      exact hmem.2.symm
  · rintro rfl
    exact distA_self A n i hi

theorem distK_symm (A : Nat → Nat → Bool) (n : Nat) (K : Option Nat) (i j : Nat) :
    distK A n K i j = distK A n K j i := by
  cases K with
  | none => exact distA_symm A n i j
  | some k =>
    show (if (k : Int) < distA A n i j then -1 else distA A n i j) =
      (if (k : Int) < distA A n j i then -1 else distA A n j i)
    rw [distA_symm A n i j]

theorem distK_self (A : Nat → Nat → Bool) (n : Nat) (K : Option Nat) (i : Nat)
    (h : i < n) : distK A n K i i = 0 := by
  cases K with
  | none => exact distA_self A n i h
  | some k =>
    show (if (k : Int) < distA A n i i then -1 else distA A n i i) = 0
    rw [distA_self A n i h, if_neg (not_lt.mpr (Int.natCast_nonneg k))]

theorem distK_cases (A : Nat → Nat → Bool) (n : Nat) (K : Option Nat) (i j : Nat) :
    distK A n K i j = -1 ∨ 0 ≤ distK A n K i j := by
  cases K with
  | none => exact distA_cases A n i j
  | some k =>
    show (if (k : Int) < distA A n i j then -1 else distA A n i j) = -1 ∨
      0 ≤ (if (k : Int) < distA A n i j then -1 else distA A n i j)
    by_cases hc : (k : Int) < distA A n i j
    · exact Or.inl (by rw [if_pos hc])
    · rcases distA_cases A n i j with h | h
      · exact Or.inl (by rw [if_neg hc, h])
      · exact Or.inr (by rw [if_neg hc]; exact h)

theorem distK_eq_zero_iff (A : Nat → Nat → Bool) (n : Nat) (K : Option Nat)
    (i j : Nat) (hi : i < n) : distK A n K i j = 0 ↔ i = j := by
  cases K with
  | none => exact distA_eq_zero_iff A n i j hi
  | some k =>
    show (if (k : Int) < distA A n i j then -1 else distA A n i j) = 0 ↔ i = j
    by_cases hc : (k : Int) < distA A n i j
    · rw [if_pos hc]
      constructor
      · intro h
        exact absurd h (by decide)
      · rintro rfl
        rw [distA_self A n i hi] at hc
        exact absurd hc (not_lt.mpr (Int.natCast_nonneg k))
    · rw [if_neg hc]
      exact distA_eq_zero_iff A n i j hi

theorem foldr_max_le {l : List Int} {x a : Int} (h : x ∈ l) : x ≤ l.foldr max a := by
  induction l with
  | nil => cases h
  | cons y ys ih =>
    rcases List.mem_cons.mp h with rfl | h2
    · exact le_max_left _ _
    · exact le_trans (ih h2) (le_max_right _ _)

theorem distK_le_set_count (A : Nat → Nat → Bool) (n : Nat) (K : Option Nat)
    (i j : Nat) (hj : j < n) : distK A n K i j ≤ set_count A n K i := by
  apply foldr_max_le
  exact List.mem_map_of_mem _ (List.mem_range.mpr hj)

theorem set_count_nonneg (A : Nat → Nat → Bool) (n : Nat) (K : Option Nat)
    (i : Nat) (h : i < n) : 0 ≤ set_count A n K i := by
  have h1 := distK_le_set_count A n K i i h
  rw [distK_self A n K i h] at h1
  exact h1

theorem num_shells_eq (A : Nat → Nat → Bool) (n : Nat) (K : Option Nat) (i : Nat)
    (h : i < n) : (num_shells A n K i : Int) = set_count A n K i + 2 := by
  have h0 := set_count_nonneg A n K i h
  rw [num_shells]
  omega

theorem two_le_num_shells (A : Nat → Nat → Bool) (n : Nat) (K : Option Nat)
    (i : Nat) (h : i < n) : 2 ≤ num_shells A n K i := by
  have h1 := num_shells_eq A n K i h
  have h0 := set_count_nonneg A n K i h
  omega

/-! ### Shell membership -/

theorem shellIndex_lt (A : Nat → Nat → Bool) (n : Nat) (K : Option Nat)
    (i x : Nat) (hi : i < n) (hx : x < n) :
    shellIndex A n K i x < num_shells A n K i := by
  have h2 := two_le_num_shells A n K i hi
  rw [shellIndex]
  by_cases hxi : x = i
  · rw [if_pos hxi]
    omega
  · rw [if_neg hxi]
    by_cases hneg : distK A n K i x < 0
    · rw [if_pos hneg]
      omega
    · rw [if_neg hneg]
      have hle := distK_le_set_count A n K i x hx
      have hnum := num_shells_eq A n K i hi
      omega

theorem mem_shell_iff (A : Nat → Nat → Bool) (n : Nat) (K : Option Nat)
    (i d x : Nat) (hi : i < n) :
    x ∈ shell_of A n K i d ↔ (x < n ∧ shellIndex A n K i x = d) := by
  have hnum := num_shells_eq A n K i hi
  have hsc := set_count_nonneg A n K i hi
  rw [shell_of, shellIndex]
  by_cases hd0 : d = 0
  · subst hd0
    rw [if_pos rfl]
    simp only [List.mem_cons, List.mem_filter, List.mem_range, decide_eq_true_eq]
    constructor
    · rintro (rfl | ⟨hxn, hxi, hdist⟩)
      · exact ⟨hi, by rw [if_pos rfl]⟩
      · exact absurd ((distK_eq_zero_iff A n K i x hi).mp hdist)
          (fun he => hxi he.symm)
    · rintro ⟨hxn, hidx⟩
      by_cases hxi : x = i
      · exact Or.inl hxi
      · exfalso
        rw [if_neg hxi] at hidx
        by_cases hneg : distK A n K i x < 0
        · rw [if_pos hneg] at hidx
          omega
        · rw [if_neg hneg] at hidx
          have hz : distK A n K i x = 0 := by omega
          exact hxi ((distK_eq_zero_iff A n K i x hi).mp hz).symm
  · rw [if_neg hd0]
    by_cases hlast : d + 1 = num_shells A n K i
    · rw [if_pos hlast]
      simp only [List.mem_filter, List.mem_range, decide_eq_true_eq]
      constructor
      · rintro ⟨hxn, hxi, hcase⟩
        refine ⟨hxn, ?_⟩
        rw [if_neg hxi]
        rcases hcase with hneg | heq
        · rw [if_pos hneg]
          omega
        · exfalso
          have hle := distK_le_set_count A n K i x hxn
          omega
      · rintro ⟨hxn, hidx⟩
        by_cases hxi : x = i
        · rw [if_pos hxi] at hidx
          omega
        · rw [if_neg hxi] at hidx
          refine ⟨hxn, hxi, ?_⟩
          by_cases hneg : distK A n K i x < 0
          · exact Or.inl hneg
          · rw [if_neg hneg] at hidx
            right
            omega
    · rw [if_neg hlast]
      simp only [List.mem_filter, List.mem_range, decide_eq_true_eq]
      constructor
      · rintro ⟨hxn, hxi, heq⟩
        refine ⟨hxn, ?_⟩
        rw [if_neg hxi]
        have hneg : ¬ distK A n K i x < 0 := by
          rw [heq]
          omega
        rw [if_neg hneg]
        omega
      · rintro ⟨hxn, hidx⟩
        by_cases hxi : x = i
        · rw [if_pos hxi] at hidx
          omega
        · rw [if_neg hxi] at hidx
          refine ⟨hxn, hxi, ?_⟩
          by_cases hneg : distK A n K i x < 0
          · rw [if_pos hneg] at hidx
            have h2 := two_le_num_shells A n K i hi
            omega
          · rw [if_neg hneg] at hidx
            omega

theorem shell_nodup (A : Nat → Nat → Bool) (n : Nat) (K : Option Nat) (i d : Nat) :
    (shell_of A n K i d).Nodup := by
  rw [shell_of]
  by_cases hd0 : d = 0
  · rw [if_pos hd0]
    refine List.Nodup.cons ?_ (List.Nodup.filter _ (List.nodup_range n))
    intro hmem
    rw [List.mem_filter] at hmem
    simp only [decide_eq_true_eq] at hmem
    exact hmem.2.1 rfl
  · rw [if_neg hd0]
    by_cases hlast : d + 1 = num_shells A n K i
    · rw [if_pos hlast]
      exact List.Nodup.filter _ (List.nodup_range n)
    · rw [if_neg hlast]
      exact List.Nodup.filter _ (List.nodup_range n)

theorem level_sets_getD (A : Nat → Nat → Bool) (n : Nat) (K : Option Nat)
    (i : Nat) (h : i < n) :
    (level_sets A n K).getD i [] =
      (List.range (num_shells A n K i)).map (fun d => shell_of A n K i d) := by
  rw [level_sets, getD_map _ _ _ _ 0 (by simpa using h), getD_range n i h]

theorem level_sets_length_eq (A : Nat → Nat → Bool) (n : Nat) (K : Option Nat)
    (i : Nat) (h : i < n) :
    ((level_sets A n K).getD i []).length = num_shells A n K i := by
  rw [level_sets_getD A n K i h]
  simp

theorem level_counts_getD (A : Nat → Nat → Bool) (n : Nat) (K : Option Nat)
    (i : Nat) (h : i < n) :
    (level_counts A n K).getD i [] =
      ((level_sets A n K).getD i []).map List.length := by
  rw [level_counts, getD_map _ _ _ _ ([] : List (List Nat))
    (by rw [level_sets]; simpa using h)]

/-- Claim C5: for every adjacency matrix and every node i below n, the
shells returned by level_sets for i are pairwise disjoint lists whose
union is exactly the full node set: every node of the graph lies in
exactly one shell of the decomposition of i, and the shell cardinalities
sum to n. -/
theorem c5_shells_partition (A : Nat → Nat → Bool) (n : Nat) (K : Option Nat)
    (i : Nat) (h : i < n) :
    ((level_sets A n K).getD i []).Pairwise List.Disjoint ∧
      (∀ x, x ∈ ((level_sets A n K).getD i []).flatten ↔ x < n) ∧
      (∀ x, x < n →
        ((level_sets A n K).getD i []).countP (fun s => decide (x ∈ s)) = 1) ∧
      (((level_sets A n K).getD i []).map List.length).sum = n := by
  rw [level_sets_getD A n K i h]
  have hpair : ((List.range (num_shells A n K i)).map
      (fun d => shell_of A n K i d)).Pairwise List.Disjoint := by
    rw [List.pairwise_map]
    refine List.Pairwise.imp_of_mem ?_ (List.pairwise_lt_range _)
    intro d1 d2 h1 h2 hlt
    intro x hx1 hx2
    have m1 := (mem_shell_iff A n K i d1 x h).mp hx1
    have m2 := (mem_shell_iff A n K i d2 x h).mp hx2
    omega
  have hmem : ∀ x, x ∈ ((List.range (num_shells A n K i)).map
      (fun d => shell_of A n K i d)).flatten ↔ x < n := by
    intro x
    rw [List.mem_flatten]
    constructor
    · rintro ⟨l, hl, hx⟩
      obtain ⟨d, hd, rfl⟩ := List.mem_map.mp hl
      exact ((mem_shell_iff A n K i d x h).mp hx).1
    · intro hx
      refine ⟨shell_of A n K i (shellIndex A n K i x),
        List.mem_map_of_mem _ (List.mem_range.mpr (shellIndex_lt A n K i x h hx)),
        (mem_shell_iff A n K i _ x h).mpr ⟨hx, rfl⟩⟩
  refine ⟨hpair, hmem, ?_, ?_⟩
  · intro x hx
    rw [List.countP_map, List.countP_eq_length_filter]
    apply filter_range_unique _ (shellIndex A n K i x) _
      (shellIndex_lt A n K i x h hx)
    intro r hr
    simp only [Function.comp_apply, decide_eq_true_eq]
    constructor
    · intro hm
      exact ((mem_shell_iff A n K i r x h).mp hm).2.symm
    · rintro rfl
      exact (mem_shell_iff A n K i _ x h).mpr ⟨hx, rfl⟩
  · have hnodup : ((List.range (num_shells A n K i)).map
        (fun d => shell_of A n K i d)).flatten.Nodup := by
      rw [List.nodup_flatten]
      refine ⟨?_, hpair⟩
      intro s hs
      obtain ⟨d, hd, rfl⟩ := List.mem_map.mp hs
      exact shell_nodup A n K i d
    have hperm : ((List.range (num_shells A n K i)).map
        (fun d => shell_of A n K i d)).flatten.Perm (List.range n) := by
      rw [List.perm_ext_iff_of_nodup hnodup (List.nodup_range n)]
      intro x
      rw [hmem x, List.mem_range]
    have hlen := hperm.length_eq
    rw [List.length_flatten] at hlen
    simpa using hlen

/-- Witness for C5: the decomposition of node 2 in the 5-node path graph. -/
theorem c5_shells_partition_witness :
    ((level_sets pathA 5 none).getD 2 []).Pairwise List.Disjoint ∧
      (∀ x, x ∈ ((level_sets pathA 5 none).getD 2 []).flatten ↔ x < 5) ∧
      (∀ x, x < 5 →
        ((level_sets pathA 5 none).getD 2 []).countP (fun s => decide (x ∈ s)) = 1) ∧
      (((level_sets pathA 5 none).getD 2 []).map List.length).sum = 5 :=
  c5_shells_partition pathA 5 none 2 (by decide)

/-! ### Symmetry of the decomposition -/

theorem level_sets_shell_getD (A : Nat → Nat → Bool) (n : Nat) (K : Option Nat)
    (i d : Nat) (hi : i < n) (hd : d < num_shells A n K i) :
    ((level_sets A n K).getD i []).getD d [] = shell_of A n K i d := by
  rw [level_sets_getD A n K i hi, getD_map _ _ _ _ 0 (by simpa using hd),
    getD_range _ _ hd]

theorem shell_sym_aux (A : Nat → Nat → Bool) (n : Nat) (K : Option Nat)
    (i j d : Nat) (hi : i < n) (hj : j < n) (hij : i ≠ j)
    (hd : d + 1 < num_shells A n K i) (hm : j ∈ shell_of A n K i d) :
    d + 1 < num_shells A n K j ∧ i ∈ shell_of A n K j d := by
  obtain ⟨hjn, hidx⟩ := (mem_shell_iff A n K i d j hi).mp hm
  have hnum := num_shells_eq A n K i hi
  have hnumj := num_shells_eq A n K j hj
  rw [shellIndex, if_neg (fun he => hij he.symm)] at hidx
  by_cases hneg : distK A n K i j < 0
  · rw [if_pos hneg] at hidx
    exfalso
    have h2 := two_le_num_shells A n K i hi
    omega
  · rw [if_neg hneg] at hidx
    have hdij : distK A n K i j = (d : Int) := by omega
    have hdji : distK A n K j i = (d : Int) := by
      rw [distK_symm A n K j i]
      exact hdij
    have hlej := distK_le_set_count A n K j i hi
    constructor
    · omega
    · rw [mem_shell_iff A n K j d i hj]
      refine ⟨hi, ?_⟩
      rw [shellIndex, if_neg hij, if_neg (by rw [hdji]; omega)]
      omega

theorem overflow_mem_iff (A : Nat → Nat → Bool) (n : Nat) (K : Option Nat)
    (i j : Nat) (hi : i < n) (hj : j < n) (hij : i ≠ j) :
    j ∈ shell_of A n K i (num_shells A n K i - 1) ↔ distK A n K i j = -1 := by
  have h2 := two_le_num_shells A n K i hi
  rw [mem_shell_iff A n K i _ j hi]
  constructor
  · rintro ⟨hjn, hidx⟩
    rw [shellIndex, if_neg (fun he => hij he.symm)] at hidx
    by_cases hneg : distK A n K i j < 0
    · rcases distK_cases A n K i j with hc | hc
      · exact hc
      · omega
    · rw [if_neg hneg] at hidx
      exfalso
      have hle := distK_le_set_count A n K i j hj
      have hnum := num_shells_eq A n K i hi
      omega
  · intro hd
    refine ⟨hj, ?_⟩
    rw [shellIndex, if_neg (fun he => hij he.symm), if_pos (by rw [hd]; omega)]

/-- Claim C6: for every undirected, unweighted adjacency matrix and every
pair of distinct nodes i and j, node j lies in a non-overflow shell d of
the decomposition of i exactly when i lies in the non-overflow shell with
the same index d of the decomposition of j; and j lies in the overflow
shell (the last shell) of i exactly when the capped distance is the
sentinel -1, which in turn holds exactly when i lies in the overflow
shell of j. -/
theorem c6_level_sets_symmetric (A : Nat → Nat → Bool) (n : Nat) (K : Option Nat)
    (i j : Nat) (hA : ∀ x y, A x y = A y x) (hi : i < n) (hj : j < n)
    (hij : i ≠ j) :
    (∀ d : Nat,
      (d + 1 < ((level_sets A n K).getD i []).length ∧
          j ∈ ((level_sets A n K).getD i []).getD d []) ↔
        (d + 1 < ((level_sets A n K).getD j []).length ∧
          i ∈ ((level_sets A n K).getD j []).getD d [])) ∧
      (j ∈ ((level_sets A n K).getD i []).getD
          (((level_sets A n K).getD i []).length - 1) [] ↔
        distK A n K i j = -1) ∧
      (i ∈ ((level_sets A n K).getD j []).getD
          (((level_sets A n K).getD j []).length - 1) [] ↔
        distK A n K i j = -1) := by
  have h2i := two_le_num_shells A n K i hi
  have h2j := two_le_num_shells A n K j hj
  refine ⟨?_, ?_, ?_⟩
  · intro d
    rw [level_sets_length_eq A n K i hi, level_sets_length_eq A n K j hj]
    constructor
    · rintro ⟨hd, hm⟩
      rw [level_sets_shell_getD A n K i d hi (by omega)] at hm
      obtain ⟨h1, hmem⟩ := shell_sym_aux A n K i j d hi hj hij hd hm
      refine ⟨h1, ?_⟩
      rw [level_sets_shell_getD A n K j d hj (by omega)]
      exact hmem
    · rintro ⟨hd, hm⟩
      rw [level_sets_shell_getD A n K j d hj (by omega)] at hm
      obtain ⟨h1, hmem⟩ := shell_sym_aux A n K j i d hj hi (fun he => hij he.symm) hd hm
      refine ⟨h1, ?_⟩
      rw [level_sets_shell_getD A n K i d hi (by omega)]
      exact hmem
  · rw [level_sets_length_eq A n K i hi,
      level_sets_shell_getD A n K i _ hi (by omega)]
    exact overflow_mem_iff A n K i j hi hj hij
  · rw [level_sets_length_eq A n K j hj,
      level_sets_shell_getD A n K j _ hj (by omega)]
    rw [overflow_mem_iff A n K j i hj hi (fun he => hij he.symm)]
    rw [distK_symm A n K j i]

theorem twoA_symm : ∀ x y, twoA x y = twoA y x := by
  intro x y
  rw [twoA, twoA, Bool.or_comm, Bool.and_comm (x == 1) (y == 0),
    Bool.and_comm (x == 0) (y == 1)]

/-- Witness for C6: the graph with the single edge 0-1 and the isolated
node 2, at the unreachable pair 0 and 2. -/
theorem c6_level_sets_symmetric_witness :
    (∀ d : Nat,
      (d + 1 < ((level_sets twoA 3 none).getD 0 []).length ∧
          2 ∈ ((level_sets twoA 3 none).getD 0 []).getD d []) ↔
        (d + 1 < ((level_sets twoA 3 none).getD 2 []).length ∧
          0 ∈ ((level_sets twoA 3 none).getD 2 []).getD d [])) ∧
      (2 ∈ ((level_sets twoA 3 none).getD 0 []).getD
          (((level_sets twoA 3 none).getD 0 []).length - 1) [] ↔
        distK twoA 3 none 0 2 = -1) ∧
      (0 ∈ ((level_sets twoA 3 none).getD 2 []).getD
          (((level_sets twoA 3 none).getD 2 []).length - 1) [] ↔
        distK twoA 3 none 0 2 = -1) :=
  c6_level_sets_symmetric twoA 3 none 0 2 twoA_symm (by decide) (by decide)
    (by decide)

/-! ### Concrete evaluations: the fabricated overflow shell -/

/-- Claim C1 fails on the code: in the 5-node path graph with no cap,
every node is within finite distance of node 2, yet the shell list that
level_sets returns for node 2 is [[2], [1, 3], [0, 4], []], with a
fabricated empty trailing overflow shell; feeding these shells to the
sampler construction then trips the own assertion of the
CompleteKPartiteGraph constructor, so the AttributedGraph constructor
fails on this graph. -/
theorem c1_overflow_shell_fabricated :
    (level_sets pathA 5 none).getD 2 [] = [[2], [1, 3], [0, 4], []] ∧
      ((List.range 5).all (fun j => decide (0 ≤ distK pathA 5 none 2 j))) = true ∧
      neighborhoods pathA 5 none =
        Except.error "assertion failed: empty partition" :=
  ⟨by decide, by decide, by rfl⟩

/-- Claim C2 fails on the code: in the two-node complete graph each node
has only first-degree neighbors, so by the claim (and by the comment in
eligible_nodes itself) no node should be eligible; but the fabricated
empty overflow shell gives each node three shells and eligible_nodes
returns both nodes. -/
theorem c2_first_degree_only_still_eligible :
    eligible_nodes twoA 2 none = [0, 1] ∧
      (level_sets twoA 2 none).getD 0 [] = [[0], [1], []] := by
  decide

/-! ### Loss weights -/

/-- Claim C7: the precomputed loss weight of node i equals half of the
squared sum minus the sum of squares of the cardinalities of the shells
of i beyond the self shell (the shell list with index zero dropped). -/
theorem c7_loss_weight_formula (A : Nat → Nat → Bool) (n : Nat) (K : Option Nat)
    (i : Nat) (h : i < n) :
    (loss_weights A n K).getD i 0 =
      (1 / 2 : ℚ) *
        ((((((level_sets A n K).getD i []).map List.length).drop 1).sum : ℚ) ^ 2 -
          (((((level_sets A n K).getD i []).map List.length).drop 1).map
            (fun x : Nat => (x : ℚ) ^ 2)).sum) := by
  rw [loss_weights, getD_map _ _ _ (0 : ℚ) 0 (by simpa using h), getD_range n i h,
    level_counts_getD A n K i h]

/-- Witness for C7: node 0 of the star with leaves 1, 2, 3 and isolated
nodes 4..7 has shell sizes 1, 3, 4 and loss weight 12. -/
theorem c7_loss_weight_formula_witness :
    ((loss_weights star8A 8 none).getD 0 0 =
      (1 / 2 : ℚ) *
        ((((((level_sets star8A 8 none).getD 0 []).map List.length).drop 1).sum : ℚ) ^ 2 -
          (((((level_sets star8A 8 none).getD 0 []).map List.length).drop 1).map
            (fun x : Nat => (x : ℚ) ^ 2)).sum)) ∧
      ((level_sets star8A 8 none).getD 0 []).map List.length = [1, 3, 4] ∧
      (loss_weights star8A 8 none).getD 0 0 = 12 := by
  have h1 := c7_loss_weight_formula star8A 8 none 0 (by decide)
  have h2 : ((level_sets star8A 8 none).getD 0 []).map List.length = [1, 3, 4] := by
    decide
  refine ⟨h1, h2, ?_⟩
  rw [h1, h2]
  norm_num

/-! ### Neighborhood construction and delegation -/

theorem build_nbrs_getD {A : Nat → Nat → Bool} {n : Nat} {K : Option Nat} :
    ∀ (l : List Nat) (out : List (Option (List (List Nat)))),
      build_neighborhoods A n K l = .ok out →
      ∀ k, k < l.length →
        mk_neighborhood A n K (l.getD k 0) = .ok (out.getD k none) := by
  intro l
  induction l with
  | nil =>
    intro out h k hk
    simp at hk
  | cons i rest ih =>
    intro out h k hk
    rw [build_neighborhoods] at h
    cases hmk : mk_neighborhood A n K i with
    | error e =>
      rw [hmk] at h
      simp at h
    | ok v =>
      rw [hmk] at h
      cases hrest : build_neighborhoods A n K rest with
      | error e =>
        rw [hrest] at h
        simp at h
      | ok out2 =>
        rw [hrest] at h
        have hout : v :: out2 = out := by
          injection h
        subst hout
        cases k with
        | zero =>
          simpa using hmk
        | succ k2 =>
          have hk2 : k2 < rest.length := by simpa using hk
          simpa using ih out2 hrest k2 hk2

theorem neighborhoods_getD {A : Nat → Nat → Bool} {n : Nat} {K : Option Nat}
    {nbrs : List (Option (List (List Nat)))}
    (h : neighborhoods A n K = .ok nbrs) (i : Nat) (hi : i < n) :
    mk_neighborhood A n K i = .ok (nbrs.getD i none) := by
  have hall := build_nbrs_getD (List.range n) nbrs h i (by simpa using hi)
  rwa [getD_range n i hi] at hall

theorem mem_eligible_iff (A : Nat → Nat → Bool) (n : Nat) (K : Option Nat)
    (i : Nat) (hi : i < n) :
    i ∈ eligible_nodes A n K ↔ 3 ≤ ((level_sets A n K).getD i []).length := by
  rw [eligible_nodes, List.mem_filter]
  simp only [List.mem_range, decide_eq_true_eq]
  constructor
  · rintro ⟨_, hle⟩
    rwa [level_counts_getD A n K i hi, List.length_map] at hle
  · intro hle
    refine ⟨hi, ?_⟩
    rwa [level_counts_getD A n K i hi, List.length_map]

/-- Claim C10: for every successfully constructed AttributedGraph, a node
is in eligible_nodes exactly when its neighborhoods entry holds a
sampler, and sample_two_neighbors on any eligible node reaches that
constructed sampler (it never dereferences a missing one). -/
theorem c10_eligible_iff_sampler (A : Nat → Nat → Bool) (n : Nat) (K : Option Nat)
    (nbrs : List (Option (List (List Nat))))
    (h : neighborhoods A n K = .ok nbrs) (i : Nat) (hi : i < n) :
    (i ∈ eligible_nodes A n K ↔ (nbrs.getD i none).isSome = true) ∧
      (i ∈ eligible_nodes A n K →
        ∃ P, nbrs.getD i none = some P ∧
          ∀ draws, sample_two_neighbors A n K nbrs i draws =
            .ok (sample_edges P draws)) := by
  have hmk := neighborhoods_getD h i hi
  have hel := mem_eligible_iff A n K i hi
  rw [mk_neighborhood] at hmk
  by_cases hc : 3 ≤ ((level_sets A n K).getD i []).length
  · rw [if_pos hc] at hmk
    cases hkp : mkCompleteKPartite (((level_sets A n K).getD i []).drop 1) with
    | error e =>
      rw [hkp] at hmk
      simp [Except.map] at hmk
    | ok P =>
      rw [hkp] at hmk
      have hv : nbrs.getD i none = some P := by
        have h2 : Except.ok (some P) =
            (Except.ok (nbrs.getD i none) : Except String (Option (List (List Nat)))) := by
          simpa [Except.map] using hmk
        injection h2 with h3
        exact h3.symm
      constructor
      · rw [hv]
        constructor
        · intro _
          rfl
        · intro _
          exact hel.mpr hc
      · intro _
        refine ⟨P, hv, fun draws => ?_⟩
        rw [sample_two_neighbors, if_neg (by omega), hv]
  · rw [if_neg hc] at hmk
    have hv : nbrs.getD i none = none := by
      injection hmk with h3
      exact h3.symm
    constructor
    · rw [hel, hv]
      constructor
      · intro h3
        exact absurd h3 hc
      · intro hfalse
        simp at hfalse
    · intro hmem
      exact absurd (hel.mp hmem) hc

/-- Witness for C10: the graph with the single edge 0-1 and the isolated
node 2; its construction succeeds and node 0 is eligible with a sampler. -/
theorem c10_eligible_iff_sampler_witness :
    (0 ∈ eligible_nodes twoA 3 none ↔
        (([some [[1], [2]], some [[0], [2]], none].getD 0 none).isSome = true)) ∧
      (0 ∈ eligible_nodes twoA 3 none →
        ∃ P, [some [[1], [2]], some [[0], [2]], none].getD 0 none = some P ∧
          ∀ draws, sample_two_neighbors twoA 3 none
              [some [[1], [2]], some [[0], [2]], none] 0 draws =
            .ok (sample_edges P draws)) :=
  c10_eligible_iff_sampler twoA 3 none [some [[1], [2]], some [[0], [2]], none]
    (by rfl) 0 (by decide)

/-- Claim C8: on a successfully constructed AttributedGraph,
sample_two_neighbors raises exactly when the node has fewer than three
shells, and in that case it raises the same descriptive error for every
batch of draws, before any sampling takes place; otherwise it returns the
sampled batch. -/
theorem c8_sample_error_iff (A : Nat → Nat → Bool) (n : Nat) (K : Option Nat)
    (nbrs : List (Option (List (List Nat))))
    (h : neighborhoods A n K = .ok nbrs) (node : Nat) (hn : node < n) :
    (((level_sets A n K).getD node []).length < 3 →
      ∀ draws, sample_two_neighbors A n K nbrs node draws =
        .error ("Node " ++ toString node ++ " has only one layer of neighbors")) ∧
      (∀ draws,
        except_is_ok (sample_two_neighbors A n K nbrs node draws) = false ↔
          ((level_sets A n K).getD node []).length < 3) := by
  constructor
  · intro hlt draws
    rw [sample_two_neighbors, if_pos hlt]
  · intro draws
    by_cases hlt : ((level_sets A n K).getD node []).length < 3
    · rw [sample_two_neighbors, if_pos hlt]
      exact iff_of_true rfl hlt
    · have hmk := neighborhoods_getD h node hn
      rw [mk_neighborhood, if_pos (by omega)] at hmk
      cases hkp : mkCompleteKPartite (((level_sets A n K).getD node []).drop 1) with
      | error e =>
        rw [hkp] at hmk
        simp [Except.map] at hmk
      | ok P =>
        rw [hkp] at hmk
        have hv : nbrs.getD node none = some P := by
          have h2 : Except.ok (some P) =
              (Except.ok (nbrs.getD node none) :
                Except String (Option (List (List Nat)))) := by
            simpa [Except.map] using hmk
          injection h2 with h3
          exact h3.symm
        rw [sample_two_neighbors, if_neg hlt, hv]
        exact iff_of_false (by simp [except_is_ok]) hlt

/-- Witness for C8: node 2 of the graph with the single edge 0-1 and the
isolated node 2 has only two shells, so sampling on it raises. -/
theorem c8_sample_error_iff_witness :
    (((level_sets twoA 3 none).getD 2 []).length < 3 →
      ∀ draws, sample_two_neighbors twoA 3 none
          [some [[1], [2]], some [[0], [2]], none] 2 draws =
        .error ("Node " ++ toString 2 ++ " has only one layer of neighbors")) ∧
      (∀ draws,
        except_is_ok (sample_two_neighbors twoA 3 none
            [some [[1], [2]], some [[0], [2]], none] 2 draws) = false ↔
          ((level_sets twoA 3 none).getD 2 []).length < 3) :=
  c8_sample_error_iff twoA 3 none [some [[1], [2]], some [[0], [2]], none]
    (by rfl) 2 (by decide)

/-! ### The closer energy of identical distributions -/

theorem zipWith_div_self {l : List ℝ} (h : ∀ x ∈ l, (0 : ℝ) < x) :
    List.zipWith (fun a b => a / b) l l = List.replicate l.length 1 := by
  induction l with
  | nil => rfl
  | cons x xs ih =>
    rw [List.zipWith_cons_cons, List.length_cons, List.replicate_succ,
      ih (fun y hy => h y (List.mem_cons_of_mem _ hy))]
    congr 1
    exact div_self (ne_of_gt (h x (List.mem_cons_self _ _)))

theorem zipWith_sub_self (l : List ℝ) :
    List.zipWith (fun a b => a - b) l l = List.replicate l.length 0 := by
  induction l with
  | nil => rfl
  | cons x xs ih =>
    rw [List.zipWith_cons_cons, List.length_cons, List.replicate_succ, ih,
      sub_self]

theorem zipWith_zero_sq_div (k : Nat) (s : List ℝ) :
    (List.zipWith (fun a b => a ^ 2 / b) (List.replicate k (0 : ℝ)) s).sum = 0 := by
  induction k generalizing s with
  | zero => simp
  | succ k ih =>
    cases s with
    | nil => simp
    | cons y ys =>
      rw [List.replicate_succ, List.zipWith_cons_cons, List.sum_cons, ih]
      norm_num

/-- Claim C9: for every triplet whose closer-neighbor embedding
parameters coincide with the ones of the anchor (equal means, equal and
strictly positive variances, of dimension L), the closer-energy term of
compute_loss is exactly zero. -/
theorem c9_closer_energy_zero (mu_i mu_j sigma_i sigma_j : List ℝ) (L : ℕ)
    (hm : mu_i = mu_j) (hs : sigma_i = sigma_j)
    (hpos : ∀ x ∈ sigma_i, (0 : ℝ) < x) (hL : sigma_i.length = L) :
    closer_energy mu_i mu_j sigma_i sigma_j L = 0 := by
  subst hm
  subst hs
  rw [closer_energy, zipWith_div_self hpos, zipWith_sub_self,
    zipWith_zero_sq_div, hL]
  simp [List.sum_replicate, List.map_replicate]

/-- Witness for C9: a concrete two-dimensional triplet with coinciding
closer parameters. -/
theorem c9_closer_energy_zero_witness :
    closer_energy [1, 2] [1, 2] [1, 3] [1, 3] 2 = 0 := by
  have hpos : ∀ x ∈ ([1, 3] : List ℝ), (0 : ℝ) < x := by
    intro x hx
    rcases List.mem_cons.mp hx with rfl | hx2
    · norm_num
    · rcases List.mem_cons.mp hx2 with rfl | hx3
      · norm_num
      · cases hx3
  exact c9_closer_energy_zero [1, 2] [1, 2] [1, 3] [1, 3] 2 rfl rfl hpos rfl
